import Mathlib

/-!
Verification of the `comma` command-string tokenizer (`Command::from_str` in
`src/lib.rs`).

The embedding has two layers:

* a faithful partial model (`stepO`, `runO`, `fromStrO`) in which the Rust
  `tokens.last_mut().unwrap()` / `tokens.last().unwrap()` accesses are modelled
  by `Option`-returning list operations, so a failed `unwrap` (a panic) shows
  up as `none`;
* a total model (`step`, `run`, `tokenize`, `Command.fromStr`) in which the
  token vector is represented as `done ++ [cur]`, with `cur` the buffer the
  Rust code reaches through `last_mut()`.

A refinement theorem shows the partial model never returns `none` and agrees
with the total model, so all other theorems are stated over the total model.

Token buffers are modelled as `List Char` (the character sequence of a Rust
`String`); `tokenize` converts them to `String` at the end.
-/

/-- The double-quote character `"` (the only quote character the code treats
specially). Written via its code point to keep it out of literals. -/
def dQuote : Char := Char.ofNat 34

/-- The single-quote character. The code gives it no special meaning; it is
used in theorems about claims that say otherwise. -/
def sQuote : Char := Char.ofNat 39

/-- The backslash character. -/
def bSlash : Char := Char.ofNat 92

/-- Whitespace test, modelling Rust's `char::is_whitespace` (restricted to the
ASCII whitespace that all inputs in this development use). -/
def isWs (c : Char) : Bool := c.isWhitespace

/-- Tokenizer state of `Command::from_str`: the Rust `tokens` vector is
`done ++ [cur]`, where `cur` is the element reached by `last_mut()`;
`prevWs`, `inQuotes`, `inBackslash` are the three boolean flags of the loop. -/
structure TState where
  done : List (List Char)
  cur : List Char
  prevWs : Bool
  inQuotes : Bool
  inBackslash : Bool
  deriving Repr, DecidableEq

/-- State before the character loop: `tokens` holds one empty string
(`tokens.push(String::from(""))`), `prev_whitespace = true`,
`in_quotes = false`, `in_backslash = false`. -/
def initState : TState := ⟨[], [], true, false, false⟩

/-- One iteration of the character loop of `Command::from_str`, branch for
branch:
1. `in_backslash`: push `c` verbatim, clear both flags' relevant bits;
2. `c == '\\'`: set `in_backslash`;
3. `in_quotes`: a `"` closes the region, anything else is pushed verbatim;
4. whitespace: start a new (empty) token unless the previous character was
   already whitespace;
5. `c == '"'`: enter quotation mode;
6. otherwise: push `c` verbatim. -/
def step (st : TState) (c : Char) : TState :=
  if st.inBackslash then
    { st with cur := st.cur ++ [c], prevWs := false, inBackslash := false }
  else if c = bSlash then
    { st with inBackslash := true }
  else if st.inQuotes then
    if c = dQuote then
      { st with prevWs := false, inQuotes := false }
    else
      { st with cur := st.cur ++ [c], prevWs := false }
  else if isWs c then
    if st.prevWs then
      { st with prevWs := true }
    else
      { st with done := st.done ++ [st.cur], cur := [], prevWs := true }
  else if c = dQuote then
    { st with prevWs := false, inQuotes := true }
  else
    { st with cur := st.cur ++ [c], prevWs := false }

/-- Run the character loop over a list of characters. -/
def run (st : TState) : List Char → TState
  | [] => st
  | c :: cs => run (step st c) cs

/-- The post-loop cleanup: `if tokens.last().unwrap().is_empty() { tokens.pop(); }`.
In the `done ++ [cur]` representation the last element is `cur`. -/
def finalizeTokens (st : TState) : List (List Char) :=
  if st.cur = [] then st.done else st.done ++ [st.cur]

/-- The token sequence `Command::from_str` computes for an input, as character
lists. -/
def tokenizeList (cs : List Char) : List (List Char) :=
  finalizeTokens (run initState cs)

/-- The token sequence for a string input, as strings. -/
def tokenize (s : String) : List String :=
  (tokenizeList s.toList).map (fun t => String.mk t)

/-- `EmptyCommandError`: the only error `Command::from_str` can return. -/
inductive EmptyCommandError where
  | mk : EmptyCommandError
  deriving Repr, DecidableEq

/-- The parsed command: `name` is the first token, `arguments` the rest. -/
structure Command where
  name : String
  arguments : List String
  deriving Repr, DecidableEq

/-- The tail of `Command::from_str`: fail with `EmptyCommandError` on an empty
token list, otherwise split into name and arguments
(`Command { name: tokens[0], arguments: tokens[1..] }`). -/
def buildCommand : List String → Except EmptyCommandError Command
  | [] => Except.error EmptyCommandError.mk
  | t :: rest => Except.ok ⟨t, rest⟩

/-- `Command::from_str` end to end. -/
def Command.fromStr (s : String) : Except EmptyCommandError Command :=
  buildCommand (tokenize s)

/-! ## Partial model: the `unwrap`s made explicit -/

/-- State with the token vector kept as a single list, exactly as the Rust
`Vec<String>`; the loop reaches its last element through `unwrap`. -/
structure OState where
  tokens : List (List Char)
  prevWs : Bool
  inQuotes : Bool
  inBackslash : Bool
  deriving Repr, DecidableEq

/-- `tokens.last_mut().unwrap().push(c)`: `none` models the panic on an empty
vector. -/
def pushLastO : List (List Char) → Char → Option (List (List Char))
  | [], _ => none
  | [t], c => some [t ++ [c]]
  | t :: t2 :: ts, c => (pushLastO (t2 :: ts) c).map (fun ts2 => t :: ts2)

/-- One loop iteration over the unsplit token vector; `none` models a panic. -/
def stepO (st : OState) (c : Char) : Option OState :=
  if st.inBackslash then
    (pushLastO st.tokens c).map
      (fun ts => { st with tokens := ts, prevWs := false, inBackslash := false })
  else if c = bSlash then
    some { st with inBackslash := true }
  else if st.inQuotes then
    if c = dQuote then
      some { st with prevWs := false, inQuotes := false }
    else
      (pushLastO st.tokens c).map (fun ts => { st with tokens := ts, prevWs := false })
  else if isWs c then
    if st.prevWs then
      some { st with prevWs := true }
    else
      some { st with tokens := st.tokens ++ [[]], prevWs := true }
  else if c = dQuote then
    some { st with prevWs := false, inQuotes := true }
  else
    (pushLastO st.tokens c).map (fun ts => { st with tokens := ts, prevWs := false })

/-- The character loop in the partial model. -/
def runO (st : OState) : List Char → Option OState
  | [] => some st
  | c :: cs =>
    match stepO st c with
    | none => none
    | some st2 => runO st2 cs

/-- `Command::from_str` in the partial model: the final
`tokens.last().unwrap()` is the `getLast?` lookup, `tokens.pop()` is
`dropLast`, and the empty-check then splits name from arguments. -/
def fromStrO (s : String) : Option (Except EmptyCommandError Command) :=
  match runO ⟨[[]], true, false, false⟩ s.toList with
  | none => none
  | some st =>
    match st.tokens.getLast? with
    | none => none
    | some l =>
      let tokens := if l = [] then st.tokens.dropLast else st.tokens
      some (match tokens with
        | [] => Except.error EmptyCommandError.mk
        | t :: rest => Except.ok ⟨String.mk t, rest.map (fun r => String.mk r)⟩)

/-! ## Derived notions used in the statements -/

/-- A character with no special meaning to the tokenizer: not whitespace, not
a backslash, not a double quote. -/
def isPlain (c : Char) : Bool := !(isWs c) && !(c = bSlash) && !(c = dQuote)

/-- Join tokens with single spaces (the joining operation of the spec's
re-tokenization property). -/
def joinTokens : List (List Char) → List Char
  | [] => []
  | [t] => t
  | t :: t2 :: ts => t ++ ' ' :: joinTokens (t2 :: ts)

/-- View a total-model state as a partial-model state: the token vector is
`done ++ [cur]`. -/
def toO (st : TState) : OState :=
  ⟨st.done ++ [st.cur], st.prevWs, st.inQuotes, st.inBackslash⟩

/-- Invariant maintained on inputs that contain no double quote: the machine
is never inside quotes, every closed token is non-empty, and the current
buffer can only be empty right after a token boundary (or while a pending
backslash is waiting for its character, or at the very start). -/
def noQuoteInv (st : TState) : Prop :=
  st.inQuotes = false ∧ (∀ t ∈ st.done, t ≠ []) ∧
    (st.cur = [] → st.prevWs = true ∨ st.inBackslash = true)

example : tokenize "hello" = ["hello"] := by decide
example : tokenize "a b" = ["a", "b"] := by decide
example : tokenize "a   b" = ["a", "b"] := by decide
example : tokenize "  a  " = ["a"] := by decide
example : tokenize (String.mk [bSlash, 'n']) = ["n"] := by decide
example : tokenize (String.mk [dQuote, 'a', ' ', 'b', dQuote]) = ["a b"] := by decide
example : tokenize (String.mk [dQuote, dQuote, ' ', 'x']) = ["", "x"] := by decide
example : Command.fromStr "run a b" = Except.ok ⟨"run", ["a", "b"]⟩ := by rfl
example : fromStrO "run a b" = some (Except.ok ⟨"run", ["a", "b"]⟩) := by rfl

/-! ## Basic lemmas about the character loop -/

theorem run_append (st : TState) (a b : List Char) :
    run st (a ++ b) = run (run st a) b := by
  induction a generalizing st with
  | nil => rfl
  | cons c cs ih => simp [run, ih]

theorem ws_ne_bSlash {c : Char} (hc : isWs c = true) : ¬(c = bSlash) := by
  intro h
  subst h
  revert hc
  decide

theorem isPlain_spec {c : Char} (hc : isPlain c = true) :
    isWs c = false ∧ ¬(c = bSlash) ∧ ¬(c = dQuote) := by
  have h := hc
  simp only [isPlain, Bool.and_eq_true, Bool.not_eq_true',
    decide_eq_false_iff_not] at h
  exact ⟨h.1.1, h.1.2, h.2⟩

theorem step_escape (st : TState) (c : Char) (h : st.inBackslash = true) :
    step st c = { st with cur := st.cur ++ [c], prevWs := false, inBackslash := false } := by
  simp [step, h]

theorem step_backslash (st : TState) (h : st.inBackslash = false) :
    step st bSlash = { st with inBackslash := true } := by
  simp [step, h]

theorem step_plain (st : TState) (c : Char) (hb : st.inBackslash = false)
    (hq : st.inQuotes = false) (hc : isPlain c = true) :
    step st c = { st with cur := st.cur ++ [c], prevWs := false } := by
  obtain ⟨h1, h2, h3⟩ := isPlain_spec hc
  simp [step, hb, hq, h1, h2, h3]

theorem step_ws_stay (st : TState) (c : Char) (hb : st.inBackslash = false)
    (hq : st.inQuotes = false) (hp : st.prevWs = true) (hc : isWs c = true) :
    step st c = st := by
  obtain ⟨d, cu, pw, q, b⟩ := st
  simp only at hb hq hp
  subst hb hq hp
  simp [step, ws_ne_bSlash hc, hc]

theorem step_ws_new (st : TState) (c : Char) (hb : st.inBackslash = false)
    (hq : st.inQuotes = false) (hp : st.prevWs = false) (hc : isWs c = true) :
    step st c = { st with done := st.done ++ [st.cur], cur := [], prevWs := true } := by
  simp [step, hb, hq, hp, ws_ne_bSlash hc, hc]

theorem run_plain (c : Char) (cs : List Char) (st : TState)
    (h : ∀ x ∈ c :: cs, isPlain x = true) (hb : st.inBackslash = false)
    (hq : st.inQuotes = false) :
    run st (c :: cs) = { st with cur := st.cur ++ c :: cs, prevWs := false } := by
  induction cs generalizing c st with
  | nil =>
    simp [run, step_plain st c hb hq (h c (by simp))]
  | cons d ds ih =>
    have hstep := step_plain st c hb hq (h c (by simp))
    have hrest : ∀ x ∈ d :: ds, isPlain x = true := by
      intro x hx
      exact h x (by simp [hx])
    calc run st (c :: d :: ds) = run (step st c) (d :: ds) := rfl
      _ = { step st c with cur := (step st c).cur ++ d :: ds, prevWs := false } := by
          rw [ih d (step st c) hrest (by rw [hstep]; exact hb) (by rw [hstep]; exact hq)]
      _ = { st with cur := st.cur ++ c :: d :: ds, prevWs := false } := by
          rw [hstep]
          simp

/-! ## Refinement: the partial model never panics and agrees with the total one -/

theorem pushLastO_concat (ds : List (List Char)) (cur : List Char) (c : Char) :
    pushLastO (ds ++ [cur]) c = some (ds ++ [cur ++ [c]]) := by
  induction ds with
  | nil => simp [pushLastO]
  | cons d ds2 ih =>
    cases ds2 with
    | nil => simp [pushLastO]
    | cons d2 ds3 =>
      have hstep2 : pushLastO (d :: d2 :: (ds3 ++ [cur])) c
          = (pushLastO (d2 :: (ds3 ++ [cur])) c).map (fun ts2 => d :: ts2) := rfl
      simp only [List.cons_append] at ih ⊢
      rw [hstep2, ih]
      rfl

theorem dQuote_ne_bSlash : ¬(dQuote = bSlash) := by decide

theorem ws_dQuote : isWs dQuote = false := by decide

theorem stepO_toO (st : TState) (c : Char) :
    stepO (toO st) c = some (toO (step st c)) := by
  obtain ⟨d, cu, pw, q, b⟩ := st
  cases b with
  | true => simp [toO, stepO, step, pushLastO_concat]
  | false =>
    by_cases hbs : c = bSlash
    · simp [toO, stepO, step, hbs]
    · cases q with
      | true =>
        by_cases hdq : c = dQuote
        · simp [toO, stepO, step, hbs, hdq, dQuote_ne_bSlash]
        · simp [toO, stepO, step, hbs, hdq, pushLastO_concat]
      | false =>
        by_cases hws : isWs c
        · cases pw with
          | true => simp [toO, stepO, step, hbs, hws]
          | false => simp [toO, stepO, step, hbs, hws]
        · by_cases hdq : c = dQuote
          · simp [toO, stepO, step, hbs, hws, hdq, dQuote_ne_bSlash, ws_dQuote]
          · simp [toO, stepO, step, hbs, hws, hdq, pushLastO_concat]

theorem runO_toO (cs : List Char) (st : TState) :
    runO (toO st) cs = some (toO (run st cs)) := by
  induction cs generalizing st with
  | nil => rfl
  | cons c cs2 ih => simp [runO, run, stepO_toO, ih]

/-- C10: parsing is total and never panics. The partial model, in which every
`unwrap` of the Rust code is an `Option`-returning access (`none` = panic),
returns `some` on every input string and agrees with the total
`Command.fromStr`, which always yields either a `Command` or an
`EmptyCommandError`. -/
theorem fromStr_total_no_panic (s : String) :
    fromStrO s = some (Command.fromStr s) := by
  have hrun : runO ⟨[[]], true, false, false⟩ s.toList
      = some (toO (run initState s.toList)) := runO_toO s.toList initState
  unfold fromStrO
  rw [hrun]
  simp only [toO, List.getLast?_concat, List.dropLast_concat]
  unfold Command.fromStr tokenize tokenizeList finalizeTokens
  by_cases hcu : (run initState s.data).cur = [] <;>
    cases hd : (run initState s.data).done <;>
      simp [String.toList, hcu, hd, buildCommand]

/-! ## Further character facts -/

theorem sQuote_ne_bSlash : ¬(sQuote = bSlash) := by decide

theorem sQuote_ne_dQuote : ¬(sQuote = dQuote) := by decide

theorem ws_sQuote : isWs sQuote = false := by decide

/-! ## Claims -/

/-- C1, counterexample: the two-character input backslash-`n` tokenizes to the
one token `"n"`, not to a literal newline — the code copies every escaped
character verbatim and translates nothing. -/
theorem escape_n_not_newline :
    tokenize (String.mk [bSlash, 'n']) = ["n"] ∧
      ¬(tokenize (String.mk [bSlash, 'n']) = ["\n"]) := by
  constructor
  · decide
  · decide

/-- C1, amended: a backslash followed by any character appends that character
verbatim to the current token (there is no `\n`/`\r`/`\t` translation); in
particular `\a` gives `a`, `\\` gives a single backslash, and `\n` gives the
letter `n`. -/
theorem escape_copies_verbatim :
    (∀ (st : TState) (c : Char), st.inBackslash = true →
      step st c = { st with cur := st.cur ++ [c], prevWs := false, inBackslash := false }) ∧
    tokenize (String.mk [bSlash, 'a']) = ["a"] ∧
    tokenize (String.mk [bSlash, bSlash]) = [String.mk [bSlash]] ∧
    tokenize (String.mk [bSlash, 'n']) = ["n"] := by
  exact ⟨step_escape, by decide, by decide, by decide⟩

/-- Witness for the amended C1 at a concrete pending-escape state and the
character `n`. -/
theorem escape_copies_verbatim_witness :
    step ⟨[], ['x'], false, false, true⟩ 'n' = ⟨[], ['x', 'n'], false, false, false⟩ := by
  have h := escape_copies_verbatim.1 ⟨[], ['x'], false, false, true⟩ 'n' rfl
  simpa using h

/-- C2, counterexample: input ending inside a quoted region does not fail;
`from_str` on `"unterminated` succeeds with command name `unterminated`. -/
theorem unterminated_quote_cx :
    Command.fromStr (String.mk (dQuote :: "unterminated".toList))
      = Except.ok ⟨"unterminated", []⟩ := by
  rfl

/-- C2, amended: when the input ends while still inside a quoted region, no
error of any kind is produced; the result is exactly the one for the input
with the closing quote appended, and `"unterminated` yields the single token
`unterminated`. -/
theorem unterminated_quote_succeeds :
    (∀ cs : List Char, (run initState cs).inQuotes = true →
      (run initState cs).inBackslash = false →
      tokenizeList cs = tokenizeList (cs ++ [dQuote])) ∧
    tokenize (String.mk (dQuote :: "unterminated".toList)) = ["unterminated"] := by
  constructor
  · intro cs hq hb
    rw [tokenizeList, tokenizeList, run_append]
    have h1 : run (run initState cs) [dQuote] = step (run initState cs) dQuote := rfl
    rw [h1]
    simp [step, hq, hb, dQuote_ne_bSlash, finalizeTokens]
  · decide

/-- Witness for the amended C2 on the concrete unterminated input `"a`. -/
theorem unterminated_quote_succeeds_witness :
    tokenizeList [dQuote, 'a'] = tokenizeList [dQuote, 'a', dQuote] := by
  have h := unterminated_quote_succeeds.1 [dQuote, 'a'] (by decide) (by decide)
  simpa using h

/-- C3, counterexample: input ending right after a backslash does not fail;
`from_str` on `trailing\` succeeds with command name `trailing`. -/
theorem trailing_backslash_cx :
    Command.fromStr ("trailing" ++ String.mk [bSlash])
      = Except.ok ⟨"trailing", []⟩ := by
  rfl

/-- C3, amended: a trailing backslash with no character to escape is silently
dropped: appending a final backslash never changes the token sequence (no
error of any kind is produced), and `trailing\` yields the token `trailing`. -/
theorem trailing_backslash_dropped :
    (∀ cs : List Char, (run initState cs).inBackslash = false →
      tokenizeList (cs ++ [bSlash]) = tokenizeList cs) ∧
    tokenize ("trailing" ++ String.mk [bSlash]) = ["trailing"] := by
  constructor
  · intro cs hb
    rw [tokenizeList, tokenizeList, run_append]
    have h1 : run (run initState cs) [bSlash] = step (run initState cs) bSlash := rfl
    rw [h1, step_backslash _ hb]
    simp [finalizeTokens]
  · decide

/-- Witness for the amended C3 on the concrete input `ab` followed by a
backslash. -/
theorem trailing_backslash_dropped_witness :
    tokenizeList (['a', 'b'] ++ [bSlash]) = tokenizeList ['a', 'b'] :=
  trailing_backslash_dropped.1 ['a', 'b'] (by decide)

/-- C4, counterexample: a single quote does not open a quoted region — the
input `'a b'` splits at the space into the two tokens `'a` and `b'` (with the
quotes kept verbatim), not the single token `a b` the claim requires. -/
theorem single_quote_cx :
    tokenize (String.mk [sQuote, 'a', ' ', 'b', sQuote])
      = [String.mk [sQuote, 'a'], String.mk ['b', sQuote]] ∧
    ¬(tokenize (String.mk [sQuote, 'a', ' ', 'b', sQuote]) = ["a b"]) := by
  constructor
  · decide
  · decide

/-- C4, amended: only the double-quote character opens or closes a quoted
region; the single-quote character has no special meaning anywhere and is
copied verbatim (whether inside or outside a double-quoted region), so
`"it's"` still tokenizes to the single token `it's`. -/
theorem single_quote_literal :
    (∀ st : TState, st.inBackslash = false →
      step st sQuote = { st with cur := st.cur ++ [sQuote], prevWs := false }) ∧
    tokenize (String.mk [dQuote, 'i', 't', sQuote, 's', dQuote])
      = [String.mk ['i', 't', sQuote, 's']] := by
  constructor
  · intro st hb
    by_cases hq : st.inQuotes = true
    · simp [step, hb, hq, sQuote_ne_bSlash, sQuote_ne_dQuote]
    · have hq2 : st.inQuotes = false := by simpa using hq
      simp [step, hb, hq2, sQuote_ne_bSlash, sQuote_ne_dQuote, ws_sQuote]
  · decide

/-- Witness for the amended C4 at a concrete in-quotes state and at a concrete
out-of-quotes state. -/
theorem single_quote_literal_witness :
    step ⟨[], ['x'], false, true, false⟩ sQuote = ⟨[], ['x', sQuote], false, true, false⟩ ∧
    step ⟨[], ['x'], false, false, false⟩ sQuote = ⟨[], ['x', sQuote], false, false, false⟩ := by
  constructor
  · have h := single_quote_literal.1 ⟨[], ['x'], false, true, false⟩ rfl
    simpa using h
  · have h := single_quote_literal.1 ⟨[], ['x'], false, false, false⟩ rfl
    simpa using h

/-- C5: building a command from a token sequence fails with
`EmptyCommandError` exactly when the sequence is empty; otherwise the first
token becomes the name and the remaining tokens, in order, the arguments. -/
theorem buildCommand_spec (ts : List String) :
    (buildCommand ts = Except.error EmptyCommandError.mk ↔ ts = []) ∧
    (∀ (t : String) (rest : List String), ts = t :: rest →
      buildCommand ts = Except.ok ⟨t, rest⟩) := by
  cases ts with
  | nil =>
    refine ⟨by simp [buildCommand], ?_⟩
    intro t rest h
    exact absurd h (by simp)
  | cons a as =>
    refine ⟨by simp [buildCommand], ?_⟩
    intro t rest h
    rw [h]
    rfl

/-- Witness for C5 on the empty token list and on `["run", "a", "b"]`. -/
theorem buildCommand_spec_witness :
    buildCommand [] = Except.error EmptyCommandError.mk ∧
    buildCommand ["run", "a", "b"] = Except.ok ⟨"run", ["a", "b"]⟩ :=
  ⟨(buildCommand_spec []).1.mpr rfl,
    (buildCommand_spec ["run", "a", "b"]).2 "run" ["a", "b"] rfl⟩

/-- C6: a run of unquoted whitespace equals a single separator — inserting an
extra whitespace character right after an existing unquoted one never changes
the token sequence — and leading or trailing whitespace contributes no token:
`a   b` tokenizes like `a b`, and `  a  ` like `a`, namely to `["a"]`. -/
theorem whitespace_collapse (p t : List Char) (c d : Char)
    (hc : isWs c = true) (hd : isWs d = true)
    (hq : (run initState p).inQuotes = false)
    (hb : (run initState p).inBackslash = false) :
    tokenizeList (p ++ c :: d :: t) = tokenizeList (p ++ c :: t) ∧
    tokenize "a   b" = tokenize "a b" ∧
    tokenize "  a  " = tokenize "a" ∧
    tokenize "a" = ["a"] := by
  refine ⟨?_, by decide, by decide, by decide⟩
  have h1 : run initState (p ++ c :: d :: t)
      = run (step (step (run initState p) c) d) t := by
    rw [run_append]
    rfl
  have h2 : run initState (p ++ c :: t) = run (step (run initState p) c) t := by
    rw [run_append]
    rfl
  have hflags : (step (run initState p) c).prevWs = true ∧
      (step (run initState p) c).inQuotes = false ∧
      (step (run initState p) c).inBackslash = false := by
    by_cases hp : (run initState p).prevWs = true
    · rw [step_ws_stay (run initState p) c hb hq hp hc]
      exact ⟨hp, hq, hb⟩
    · have hp2 : (run initState p).prevWs = false := by simpa using hp
      rw [step_ws_new (run initState p) c hb hq hp2 hc]
      exact ⟨rfl, hq, hb⟩
  have hcollapse : step (step (run initState p) c) d = step (run initState p) c :=
    step_ws_stay _ d hflags.2.2 hflags.2.1 hflags.1 hd
  rw [tokenizeList, tokenizeList, h1, h2, hcollapse]

/-- Witness for C6: doubling the space in `a b` leaves the token sequence
unchanged. -/
theorem whitespace_collapse_witness :
    tokenizeList (['a'] ++ ' ' :: ' ' :: ['b']) = tokenizeList (['a'] ++ ' ' :: ['b']) :=
  (whitespace_collapse ['a'] ['b'] ' ' ' ' (by decide) (by decide) (by decide)
    (by decide)).1

/-- C7: a double quote never changes the token list by itself (outside of a
pending escape it only toggles the quote flag, leaving both the closed tokens
and the current buffer untouched), so quoted text adjacent to unquoted text
stays in the same token and `a"b c"d` tokenizes to the single token `ab cd`. -/
theorem quote_no_boundary :
    (∀ st : TState, st.inBackslash = false →
      (step st dQuote).done = st.done ∧ (step st dQuote).cur = st.cur) ∧
    tokenize (String.mk ['a', dQuote, 'b', ' ', 'c', dQuote, 'd']) = ["ab cd"] := by
  constructor
  · intro st hb
    by_cases hq : st.inQuotes = true
    · simp [step, hb, hq, dQuote_ne_bSlash]
    · have hq2 : st.inQuotes = false := by simpa using hq
      simp [step, hb, hq2, dQuote_ne_bSlash, ws_dQuote]
  · decide

/-- Witness for C7 at a concrete state with a non-empty current buffer. -/
theorem quote_no_boundary_witness :
    (step ⟨[['x']], ['y'], false, false, false⟩ dQuote).done = [['x']] ∧
    (step ⟨[['x']], ['y'], false, false, false⟩ dQuote).cur = ['y'] :=
  quote_no_boundary.1 ⟨[['x']], ['y'], false, false, false⟩ rfl

/-! ## The no-quote invariant (for C8) -/

theorem step_noQuoteInv (st : TState) (c : Char) (h : noQuoteInv st)
    (hc : ¬(c = dQuote)) : noQuoteInv (step st c) := by
  obtain ⟨hq, hdone, hcur⟩ := h
  by_cases hb : st.inBackslash = true
  · rw [step_escape st c hb]
    refine ⟨hq, hdone, ?_⟩
    intro habs
    simp at habs
  · have hb2 : st.inBackslash = false := by simpa using hb
    by_cases hbs : c = bSlash
    · subst hbs
      rw [step_backslash st hb2]
      exact ⟨hq, hdone, fun _ => Or.inr rfl⟩
    · by_cases hws : isWs c = true
      · by_cases hp : st.prevWs = true
        · rw [step_ws_stay st c hb2 hq hp hws]
          exact ⟨hq, hdone, fun _ => Or.inl hp⟩
        · have hp2 : st.prevWs = false := by simpa using hp
          rw [step_ws_new st c hb2 hq hp2 hws]
          refine ⟨hq, ?_, fun _ => Or.inl rfl⟩
          intro t ht
          rcases List.mem_append.mp ht with h1 | h2
          · exact hdone t h1
          · have ht2 : t = st.cur := by simpa using h2
            subst ht2
            intro habs
            rcases hcur habs with h3 | h3
            · rw [hp2] at h3
              cases h3
            · rw [hb2] at h3
              cases h3
      · have hws2 : isWs c = false := by simpa using hws
        have hplain : isPlain c = true := by
          simp [isPlain, hws2, hbs, hc]
        rw [step_plain st c hb2 hq hplain]
        refine ⟨hq, hdone, ?_⟩
        intro habs
        simp at habs

theorem run_noQuoteInv (cs : List Char) (st : TState) (h : noQuoteInv st)
    (hcs : ∀ c ∈ cs, ¬(c = dQuote)) : noQuoteInv (run st cs) := by
  induction cs generalizing st with
  | nil => exact h
  | cons c cs2 ih =>
    exact ih (step st c) (step_noQuoteInv st c h (hcs c (by simp)))
      (fun x hx => hcs x (by simp [hx]))

/-- C8, amended: on an input that contains no double-quote character, every
finalized token is non-empty. (With quotes this fails: an empty quoted span
can finalize an empty token, see the counterexample.) -/
theorem tokens_nonempty_no_quotes (cs : List Char)
    (hcs : ∀ c ∈ cs, ¬(c = dQuote)) :
    ∀ t ∈ tokenizeList cs, t ≠ [] := by
  have hinv : noQuoteInv (run initState cs) :=
    run_noQuoteInv cs initState ⟨rfl, by simp [initState], fun _ => Or.inl rfl⟩ hcs
  obtain ⟨hq, hdone, hcur⟩ := hinv
  intro t ht
  rw [tokenizeList, finalizeTokens] at ht
  by_cases hcu : (run initState cs).cur = []
  · rw [if_pos hcu] at ht
    exact hdone t ht
  · rw [if_neg hcu] at ht
    rcases List.mem_append.mp ht with h1 | h2
    · exact hdone t h1
    · have ht2 : t = (run initState cs).cur := by simpa using h2
      rw [ht2]
      exact hcu

/-- Witness for the amended C8 on the quote-free input `a b`. -/
theorem tokens_nonempty_no_quotes_witness :
    tokenizeList ['a', ' ', 'b'] = [['a'], ['b']] ∧ (['a'] : List Char) ≠ [] :=
  ⟨by decide, tokens_nonempty_no_quotes ['a', ' ', 'b'] (by decide) ['a'] (by decide)⟩

/-- C8, counterexample: tokenization succeeds on `"" x` yet its first
finalized token is the empty string — an empty quoted span produces an empty
token, which even becomes the command name. -/
theorem empty_token_cx :
    tokenize (String.mk [dQuote, dQuote, ' ', 'x']) = ["", "x"] ∧
    Command.fromStr (String.mk [dQuote, dQuote, ' ', 'x']) = Except.ok ⟨"", ["x"]⟩ := by
  constructor
  · decide
  · rfl

/-! ## Re-tokenization (for C9) -/

theorem run_joinTokens (ts : List (List Char)) (d : List (List Char))
    (hne : ∀ t ∈ ts, t ≠ [])
    (hplain : ∀ t ∈ ts, ∀ c ∈ t, isPlain c = true) :
    finalizeTokens (run ⟨d, [], true, false, false⟩ (joinTokens ts)) = d ++ ts := by
  induction ts generalizing d with
  | nil => simp [joinTokens, run, finalizeTokens]
  | cons t rest ih =>
    obtain ⟨c, cs, hc⟩ : ∃ c cs, t = c :: cs := by
      cases t with
      | nil => exact absurd rfl (hne [] (by simp))
      | cons c cs => exact ⟨c, cs, rfl⟩
    subst hc
    have hpl : ∀ x ∈ c :: cs, isPlain x = true :=
      fun x hx => hplain (c :: cs) (by simp) x hx
    cases rest with
    | nil =>
      have hj : joinTokens [c :: cs] = c :: cs := rfl
      rw [hj, run_plain c cs _ hpl rfl rfl]
      simp [finalizeTokens]
    | cons t2 rest2 =>
      have hj : joinTokens ((c :: cs) :: t2 :: rest2)
          = ((c :: cs) ++ [' ']) ++ joinTokens (t2 :: rest2) := by
        simp [joinTokens]
      rw [hj, run_append, run_append, run_plain c cs _ hpl rfl rfl]
      have hstep : run { (⟨d, [], true, false, false⟩ : TState) with
          cur := [] ++ c :: cs, prevWs := false } [' ']
          = ⟨d ++ [c :: cs], [], true, false, false⟩ := by
        have h1 := step_ws_new ⟨d, c :: cs, false, false, false⟩ ' ' rfl rfl rfl
          (by decide)
        simpa using h1
      rw [hstep]
      rw [ih (d ++ [c :: cs]) (fun x hx => hne x (by simp [hx]))
        (fun x hx => hplain x (by simp [hx]))]
      simp

/-- C9, counterexample: the input `"" x` tokenizes successfully into
`["", "x"]`, whose tokens contain no internal special characters, yet joining
them with single spaces gives ` x`, which re-tokenizes to `["x"]`, not to the
original sequence. -/
theorem retokenize_cx :
    tokenizeList [dQuote, dQuote, ' ', 'x'] = [[], ['x']] ∧
    isPlain 'x' = true ∧
    tokenizeList (joinTokens [[], ['x']]) = [['x']] ∧
    ¬(tokenizeList (joinTokens [[], ['x']]) = [[], ['x']]) := by
  refine ⟨by decide, by decide, by decide, by decide⟩

/-- C9, amended: if an input tokenizes into tokens that are all non-empty and
contain no special characters (no whitespace, quote, or backslash), then
joining those tokens with single spaces and tokenizing again yields the same
token sequence. -/
theorem retokenize_fixed (s : List Char) (ts : List (List Char))
    (_hsrc : tokenizeList s = ts)
    (hne : ∀ t ∈ ts, t ≠ [])
    (hplain : ∀ t ∈ ts, ∀ c ∈ t, isPlain c = true) :
    tokenizeList (joinTokens ts) = ts := by
  have h := run_joinTokens ts [] hne hplain
  simpa [tokenizeList, initState] using h

/-- Witness for the amended C9: `a b` tokenizes to `[[a], [b]]`, and
re-tokenizing the joined tokens reproduces it. -/
theorem retokenize_fixed_witness :
    tokenizeList (joinTokens [['a'], ['b']]) = [['a'], ['b']] :=
  retokenize_fixed ['a', ' ', 'b'] [['a'], ['b']] (by decide) (by decide) (by decide)
